import Mathlib

/-!
Verification of the diagram-extraction core of the Notion Autopilot media
bridge, embedded from `media_bridge/app.py`.

The pure geometry, filtering, deduplication, naming, and fallback logic of
`_extract_diagrams_from_pdf`, `_iou`, `_clamp`, `_render_pdf_to_pngs` and
`_expand_downloaded_file` is translated directly.  The external collaborators
(the PDF rasterizer, the OpenCV contour / morphology operators, the PNG
encoder) are modelled by their outputs, exactly as the specification's
external-interface section delimits them: a page is a raster size together
with the list of contour bounding rectangles reported by the vision library,
and a text block is the page-space rectangle reported by the document model.

Numeric conventions: Python ints are ℤ (coordinates from `cv2.boundingRect`
are ℕ), and the float threshold comparisons (`ratio < 0.02`, `ratio > 0.90`,
`_iou(...) > 0.45`, `int(0.04 * h)`, `int(0.98 * h)`, `int(0.01 * w)`) are
embedded as exact rational / integer arithmetic with the same constants.
-/

namespace MediaBridge

/-- `MAX_SLIDE_PAGES` from `app.py` (default value of the env knob). -/
def MAX_SLIDE_PAGES : ℕ := 80

/-- A contour bounding rectangle as returned by `cv2.boundingRect`:
`x, y, bw, bh` with the box spanning `[x, x+bw) × [y, y+bh)` in pixel space. -/
structure Rect where
  x : ℕ
  y : ℕ
  bw : ℕ
  bh : ℕ
deriving DecidableEq

/-- A padded/clamped candidate box `(x0, y0, x1, y1)` in pixel space. -/
structure Box where
  x0 : ℤ
  y0 : ℤ
  x1 : ℤ
  y1 : ℤ
deriving DecidableEq

/-- `_clamp(v, low, high) = max(low, min(v, high))` from `app.py`. -/
def _clamp (v low high : ℤ) : ℤ := max low (min v high)

/-- Signed area `(x1 - x0) * (y1 - y0)` of a box, the sort key used at
`sorted(boxes, key=lambda b: (b[2]-b[0])*(b[3]-b[1]), reverse=True)`. -/
def boxArea (b : Box) : ℤ := (b.x1 - b.x0) * (b.y1 - b.y0)

/-- The intersection area `iw * ih` computed inside `_iou`, where
`iw = max(0, min(ax1,bx1) - max(ax0,bx0))` and similarly for `ih`. -/
def interArea (a b : Box) : ℤ :=
  max 0 (min a.x1 b.x1 - max a.x0 b.x0) * max 0 (min a.y1 b.y1 - max a.y0 b.y0)

/-- A box's own area floored at 1, `max(1, (x1-x0)*(y1-y0))`, as in `_iou`. -/
def boxAreaFloor (b : Box) : ℤ := max 1 (boxArea b)

/-- `_iou(a, b)` from `app.py`: zero when the intersection has a non-positive
dimension, otherwise `inter / (a_area + b_area - inter)` with both own areas
floored at 1. -/
def _iou (a b : Box) : ℚ :=
  if interArea a b ≤ 0 then 0
  else (interArea a b : ℚ) /
    ((boxAreaFloor a : ℚ) + (boxAreaFloor b : ℚ) - (interArea a b : ℚ))

/-- `int(0.04 * h)`: the top header cut used at
`if y < int(0.04 * h)` (exact-arithmetic embedding of the float truncation). -/
def headerCut (h : ℕ) : ℕ := 4 * h / 100

/-- `int(0.98 * h)`: the bottom footer cut used at
`if (y + bh) > int(0.98 * h)`. -/
def footerCut (h : ℕ) : ℕ := 98 * h / 100

/-- `max(8, int(0.01 * d))`: the padding applied to a surviving candidate in
each dimension (`pad_x` with `d = w`, `pad_y` with `d = h`). -/
def padAmt (d : ℕ) : ℤ := max 8 ((d / 100 : ℕ) : ℤ)

/-- The candidate filter of `_extract_diagrams_from_pdf`: a contour bounding
rectangle survives when none of the three `continue` guards fires, i.e.
`0.02 ≤ area/page_area ≤ 0.90` (embedded as the equivalent integer
cross-multiplications), `140 ≤ bw`, `100 ≤ bh`, and the box avoids the
header/footer stripes: `int(0.04*h) ≤ y` and `y + bh ≤ int(0.98*h)`. -/
def keepsRect (w h : ℕ) (r : Rect) : Prop :=
  w * h ≤ 50 * (r.bw * r.bh) ∧
  10 * (r.bw * r.bh) ≤ 9 * (w * h) ∧
  140 ≤ r.bw ∧ 100 ≤ r.bh ∧
  headerCut h ≤ r.y ∧ r.y + r.bh ≤ footerCut h

instance (w h : ℕ) (r : Rect) : Decidable (keepsRect w h r) := by
  unfold keepsRect; infer_instance

/-- Padding and clamping of a surviving candidate:
`x0 = _clamp(x - pad_x, 0, w)`, ..., `y1 = _clamp(y + bh + pad_y, 0, h)`. -/
def padBox (w h : ℕ) (r : Rect) : Box where
  x0 := _clamp ((r.x : ℤ) - padAmt w) 0 w
  y0 := _clamp ((r.y : ℤ) - padAmt h) 0 h
  x1 := _clamp ((r.x : ℤ) + r.bw + padAmt w) 0 w
  y1 := _clamp ((r.y : ℤ) + r.bh + padAmt h) 0 h

/-- The `boxes` list after the filtering loop: every surviving contour
rectangle, padded and clamped, in contour discovery order. -/
def candidateBoxes (w h : ℕ) (contours : List Rect) : List Box :=
  (contours.filter (fun r => decide (keepsRect w h r))).map (padBox w h)

/-- One step of the stable descending insertion sort that embeds
`sorted(boxes, key=area, reverse=True)`: `b` is inserted in front of the
first element whose area is `≤` area of `b`, so earlier input elements
precede later ones among equal areas. -/
def insertDesc (b : Box) : List Box → List Box
  | [] => [b]
  | x :: xs => if boxArea x ≤ boxArea b then b :: x :: xs else x :: insertDesc b xs

/-- Stable sort by area descending, as `sorted(..., reverse=True)`. -/
def sortDesc : List Box → List Box
  | [] => []
  | b :: rest => insertDesc b (sortDesc rest)

/-- The greedy suppression loop: skip `b` if it overlaps some already kept
box with IoU `> 0.45`; otherwise append it, and stop as soon as 6 boxes are
kept (`if len(kept) >= 6: break`). -/
def dedupGo : List Box → List Box → List Box
  | kept, [] => kept
  | kept, b :: rest =>
    if kept.any (fun k => decide ((9 : ℚ) / 20 < _iou b k)) then dedupGo kept rest
    else if 6 ≤ kept.length + 1 then kept ++ [b]
    else dedupGo (kept ++ [b]) rest

/-- The full deduplication stage: sort by area descending, then greedily
keep boxes whose IoU with every kept box is `≤ 0.45`, capped at 6. -/
def dedup (bs : List Box) : List Box := dedupGo [] (sortDesc bs)

/-- The `kept` list for one page: filter, pad, sort, deduplicate. -/
def keptBoxes (w h : ℕ) (contours : List Rect) : List Box :=
  dedup (candidateBoxes w h contours)

/-- Integer-arithmetic version of the test `_iou b k > 0.45`, used only to
evaluate the pipeline on concrete inputs (the rational comparison does not
reduce inside the kernel); `decide_iou_gt` proves it equivalent. -/
def overlapThresh (b k : Box) : Bool :=
  decide (0 < interArea b k ∧
    9 * (boxAreaFloor b + boxAreaFloor k - interArea b k) < 20 * interArea b k)

/-- `dedupGo` with the overlap test replaced by its integer equivalent. -/
def dedupGoInt : List Box → List Box → List Box
  | kept, [] => kept
  | kept, b :: rest =>
    if kept.any (fun k => overlapThresh b k) then dedupGoInt kept rest
    else if 6 ≤ kept.length + 1 then kept ++ [b]
    else dedupGoInt (kept ++ [b]) rest

/-- Zero-pad a digit string on the left to the given width, as Python's
`{n:03d}` / `{n:02d}` format specifiers do for non-negative `n`. -/
def zfill (width : ℕ) (s : String) : String :=
  if s.length < width then String.mk (List.replicate (width - s.length) '0') ++ s else s

/-- The crop name `f"{base}_p{page:03d}_diagram_{idx:02d}.png"` (both indices
already 1-based at the call site). -/
def diagName (base : String) (page idx : ℕ) : String :=
  base ++ "_p" ++ zfill 3 (Nat.repr page) ++ "_diagram_" ++ zfill 2 (Nat.repr idx) ++ ".png"

/-- The full-page name `f"{base}_slide_{page:03d}.png"` from
`_render_pdf_to_pngs` (page already 1-based at the call site). -/
def slideName (base : String) (page : ℕ) : String :=
  base ++ "_slide_" ++ zfill 3 (Nat.repr page) ++ ".png"

/-- The final path component of a name (text after the last slash). -/
def lastComponent (s : String) : String :=
  String.mk ((s.toList.reverse.takeWhile (fun c => ¬ (c = '/'))).reverse)

/-- `Path(source_name).stem` from `pathlib` (an external collaborator):
the final component with its last extension removed; a name whose only dot
is leading, or whose last character is a dot, has no extension to strip. -/
def stem (s : String) : String :=
  let name := lastComponent s
  let cs := name.toList
  if cs.getLast? = some '.' then name
  else
    match cs.reverse.dropWhile (fun c => ¬ (c = '.')) with
    | [] => name
    | [_] => name
    | _ :: rest => String.mk rest.reverse

/-- `base = Path(source_name).stem or "slides"`. -/
def baseOf (sourceName : String) : String :=
  if stem sourceName = "" then "slides" else stem sourceName

/-- What an output image contains: a whole rendered page (the fallback and
page-mode path) or the crop of a box from a page's raster. -/
inductive ImageContent where
  | fullPage (pageIdx : ℕ)
  | crop (pageIdx : ℕ) (b : Box)
deriving DecidableEq

/-- One entry of the list returned by `_extract_diagrams_from_pdf` /
`_render_pdf_to_pngs`: the image data with its generated name and mime. -/
structure NamedImage where
  content : ImageContent
  name : String
  mime : String
deriving DecidableEq

/-- The element count of the numpy slice `img[y0:y1, x0:x1]` of the RGB
raster (3 channels), whose emptiness is tested by `if crop.size == 0`. -/
def cropSize (b : Box) : ℤ := max 0 (b.y1 - b.y0) * max 0 (b.x1 - b.x0) * 3

/-- The emission loop `for idx, (x0, y0, x1, y1) in enumerate(kept)`:
boxes whose crop is empty are skipped (the enumerate index still advances),
the rest are written as PNGs named with the 1-based kept index. -/
def emitCrops (base : String) (pageIdx : ℕ) : ℕ → List Box → List NamedImage
  | _, [] => []
  | i, b :: rest =>
    if cropSize b = 0 then emitCrops base pageIdx (i + 1) rest
    else
      { content := ImageContent.crop pageIdx b,
        name := diagName base (pageIdx + 1) (i + 1),
        mime := "image/png" } :: emitCrops base pageIdx (i + 1) rest

/-- The per-page body of `_extract_diagrams_from_pdf`: filter and pad the
contour rectangles, deduplicate, and emit named crops.  The contour list is
the output of the external vision library on the cleaned mask. -/
def extractPage (w h : ℕ) (contours : List Rect) (base : String) (pageIdx : ℕ) :
    List NamedImage :=
  emitCrops base pageIdx 0 (keptBoxes w h contours)

/-- One rasterized page as the extractor sees it: raster size plus the
contour bounding rectangles found on its cleaned mask. -/
structure Page where
  w : ℕ
  h : ℕ
  contours : List Rect
deriving DecidableEq

/-- The page loop of `_extract_diagrams_from_pdf`: concatenate the per-page
outputs in increasing page order. -/
def extractDoc (base : String) (pages : List Page) : List NamedImage :=
  (pages.enum.map (fun ip => extractPage ip.2.w ip.2.h ip.2.contours base ip.1)).flatten

/-- The page loop of `_render_pdf_to_pngs`: one full-page image per page. -/
def renderDoc (base : String) (pages : List Page) : List NamedImage :=
  (List.range pages.length).map (fun idx =>
    { content := ImageContent.fullPage idx,
      name := slideName base (idx + 1),
      mime := "image/png" })

/-- `_render_pdf_to_pngs` with its document guards: 400 when the PDF has no
pages, 413 when it exceeds `MAX_SLIDE_PAGES`. -/
def renderDocChecked (base : String) (pages : List Page) :
    Except ℕ (List NamedImage) :=
  if pages.length = 0 then Except.error 400
  else if MAX_SLIDE_PAGES < pages.length then Except.error 413
  else Except.ok (renderDoc base pages)

/-- `_extract_diagrams_from_pdf` with the same document guards, which run
before any per-page extraction. -/
def extractDocChecked (base : String) (pages : List Page) :
    Except ℕ (List NamedImage) :=
  if pages.length = 0 then Except.error 400
  else if MAX_SLIDE_PAGES < pages.length then Except.error 413
  else Except.ok (extractDoc base pages)

/-- The PDF branch of `_expand_downloaded_file`: page mode renders every
page; diagram mode extracts, and falls back to rendering every page when
the extraction output is empty. -/
def expandPdf (mode sourceName : String) (pages : List Page) :
    Except ℕ (List NamedImage) :=
  let base := baseOf sourceName
  if mode = "page" then renderDocChecked base pages
  else
    match extractDocChecked base pages with
    | Except.error e => Except.error e
    | Except.ok images =>
      if images.isEmpty then renderDocChecked base pages else Except.ok images

/-- A pixel mask, indexed row then column as numpy does. -/
abbrev Mask := ℕ → ℕ → ℕ

/-- `mask = (gray < 245).astype(np.uint8) * 255`: 255 on ink pixels
(grayscale below 245), 0 on near-white background. -/
def threshMask (gray : ℕ → ℕ → ℕ) : Mask :=
  fun r c => if gray r c < 245 then 255 else 0

/-- One text block from `page.get_text("dict")["blocks"]`: its `type` field
(0 for text) and its page-space bbox. -/
structure TextBlock where
  type : ℤ
  x0 : ℚ
  y0 : ℚ
  x1 : ℚ
  y1 : ℚ

/-- Python's `int(...)` on a real value: truncation toward zero. -/
def pytrunc (q : ℚ) : ℤ := if 0 ≤ q then ⌊q⌋ else ⌈q⌉

/-- A block rectangle in pixel space. -/
structure PixRect where
  px0 : ℤ
  py0 : ℤ
  px1 : ℤ
  py1 : ℤ

/-- The pixel rectangle of a text block: scale by `sx`/`sy`, expand by the
8-pixel margin, clamp to the image:
`px0 = _clamp(int(x0 * sx) - 8, 0, w)`, ..., `py1 = _clamp(int(y1 * sy) + 8, 0, h)`. -/
def blockPix (w h : ℕ) (sx sy : ℚ) (b : TextBlock) : PixRect where
  px0 := _clamp (pytrunc (b.x0 * sx) - 8) 0 w
  py0 := _clamp (pytrunc (b.y0 * sy) - 8) 0 h
  px1 := _clamp (pytrunc (b.x1 * sx) + 8) 0 w
  py1 := _clamp (pytrunc (b.y1 * sy) + 8) 0 h

/-- Membership of pixel `(r, c)` in the numpy slice
`mask[py0:py1, px0:px1]` of a block's pixel rectangle. -/
def inBlockRect (w h : ℕ) (sx sy : ℚ) (b : TextBlock) (r c : ℕ) : Prop :=
  (blockPix w h sx sy b).px0 ≤ (c : ℤ) ∧ (c : ℤ) < (blockPix w h sx sy b).px1 ∧
  (blockPix w h sx sy b).py0 ≤ (r : ℤ) ∧ (r : ℤ) < (blockPix w h sx sy b).py1

instance (w h : ℕ) (sx sy : ℚ) (b : TextBlock) (r c : ℕ) :
    Decidable (inBlockRect w h sx sy b r c) := by
  unfold inBlockRect; infer_instance

/-- One iteration of the text-erase loop: blocks whose `type` is not 0 are
skipped (`continue`); for a text block the slice of its pixel rectangle is
set to 0 (`mask[py0:py1, px0:px1] = 0`). -/
def eraseBlock (w h : ℕ) (sx sy : ℚ) (m : Mask) (b : TextBlock) : Mask :=
  if b.type = 0 then
    fun r c => if inBlockRect w h sx sy b r c then 0 else m r c
  else m

/-- The whole text-erase loop over the page's block list. -/
def eraseBlocks (w h : ℕ) (sx sy : ℚ) (blocks : List TextBlock) (m : Mask) : Mask :=
  blocks.foldl (eraseBlock w h sx sy) m

/-- The pixel area of an output image's content: the area of the cropped box
for a diagram crop, 0 for a full-page export (used to compare crop sizes). -/
def contentArea : ImageContent → ℤ
  | ImageContent.fullPage _ => 0
  | ImageContent.crop _ b => boxArea b

/-- Ten synthetic candidate boxes of strictly decreasing size, nested so that
every pair overlaps with IoU at least 0.91: the deduplication fixture. -/
def tenBoxes : List Box :=
  [⟨0, 0, 1000, 100⟩, ⟨0, 0, 990, 100⟩, ⟨0, 0, 980, 100⟩, ⟨0, 0, 970, 100⟩,
   ⟨0, 0, 960, 100⟩, ⟨0, 0, 950, 100⟩, ⟨0, 0, 940, 100⟩, ⟨0, 0, 930, 100⟩,
   ⟨0, 0, 920, 100⟩, ⟨0, 0, 910, 100⟩]

theorem interArea_nonneg (a b : Box) : 0 ≤ interArea a b :=
  mul_nonneg (le_max_left 0 _) (le_max_left 0 _)

theorem interArea_comm (a b : Box) : interArea a b = interArea b a := by
  unfold interArea
  rw [min_comm a.x1 b.x1, max_comm a.x0 b.x0, min_comm a.y1 b.y1, max_comm a.y0 b.y0]

theorem boxAreaFloor_pos (b : Box) : 0 < boxAreaFloor b :=
  lt_of_lt_of_le one_pos (le_max_left 1 _)

theorem interArea_le_left (a b : Box) : interArea a b ≤ boxAreaFloor a := by
  unfold interArea boxAreaFloor boxArea
  rcases le_or_lt (min a.x1 b.x1 - max a.x0 b.x0) 0 with hx | hx
  · rw [max_eq_left hx, zero_mul]
    exact le_trans zero_le_one (le_max_left 1 _)
  · rcases le_or_lt (min a.y1 b.y1 - max a.y0 b.y0) 0 with hy | hy
    · rw [max_eq_left hy, mul_zero]
      exact le_trans zero_le_one (le_max_left 1 _)
    · rw [max_eq_right hx.le, max_eq_right hy.le]
      have h1 : min a.x1 b.x1 - max a.x0 b.x0 ≤ a.x1 - a.x0 := by
        have := min_le_left a.x1 b.x1
        have := le_max_left a.x0 b.x0
        omega
      have h2 : min a.y1 b.y1 - max a.y0 b.y0 ≤ a.y1 - a.y0 := by
        have := min_le_left a.y1 b.y1
        have := le_max_left a.y0 b.y0
        omega
      refine le_trans (mul_le_mul h1 h2 hy.le (by omega)) (le_max_right 1 _)

theorem interArea_le_right (a b : Box) : interArea a b ≤ boxAreaFloor b := by
  rw [interArea_comm]; exact interArea_le_left b a

theorem _iou_comm (a b : Box) : _iou a b = _iou b a := by
  unfold _iou
  rw [interArea_comm]
  split
  · rfl
  · ring_nf

theorem _iou_nonneg (a b : Box) : 0 ≤ _iou a b := by
  unfold _iou
  split
  · exact le_refl 0
  · next hI =>
    have hI' : 0 < interArea a b := not_le.mp hI
    have hB := interArea_le_right a b
    have hD : 0 < boxAreaFloor a + boxAreaFloor b - interArea a b := by
      have := boxAreaFloor_pos a
      omega
    apply div_nonneg
    · exact_mod_cast hI'.le
    · have : ((0 : ℤ) : ℚ) ≤ ((boxAreaFloor a + boxAreaFloor b - interArea a b : ℤ) : ℚ) :=
        Int.cast_le.mpr hD.le
      push_cast at this
      linarith

theorem _iou_le_one (a b : Box) : _iou a b ≤ 1 := by
  unfold _iou
  split
  · norm_num
  · next hI =>
    have hI' : 0 < interArea a b := not_le.mp hI
    have hA := interArea_le_left a b
    have hB := interArea_le_right a b
    have hD : 0 < boxAreaFloor a + boxAreaFloor b - interArea a b := by
      have := boxAreaFloor_pos a
      omega
    have hDq : (0 : ℚ) < (boxAreaFloor a : ℚ) + (boxAreaFloor b : ℚ) - (interArea a b : ℚ) := by
      have : ((0 : ℤ) : ℚ) < ((boxAreaFloor a + boxAreaFloor b - interArea a b : ℤ) : ℚ) :=
        Int.cast_lt.mpr hD
      push_cast at this
      linarith
    rw [div_le_one hDq]
    have hZ : interArea a b ≤ boxAreaFloor a + boxAreaFloor b - interArea a b := by omega
    have : ((interArea a b : ℤ) : ℚ) ≤ ((boxAreaFloor a + boxAreaFloor b - interArea a b : ℤ) : ℚ) :=
      Int.cast_le.mpr hZ
    push_cast at this
    linarith

theorem iou_gt_iff (b k : Box) :
    (9 : ℚ) / 20 < _iou b k ↔
      (0 < interArea b k ∧
        9 * (boxAreaFloor b + boxAreaFloor k - interArea b k) < 20 * interArea b k) := by
  unfold _iou
  rcases le_or_lt (interArea b k) 0 with h | h
  · rw [if_pos h]
    constructor
    · intro hlt; exact absurd hlt (by norm_num)
    · rintro ⟨h0, -⟩; omega
  · rw [if_neg (not_le.mpr h)]
    have hbk := interArea_le_left b k
    have hkk := interArea_le_right b k
    have hD : 0 < boxAreaFloor b + boxAreaFloor k - interArea b k := by
      have := boxAreaFloor_pos b
      omega
    have hDq : (0 : ℚ) < (boxAreaFloor b : ℚ) + (boxAreaFloor k : ℚ) - (interArea b k : ℚ) := by
      have : ((0 : ℤ) : ℚ) < ((boxAreaFloor b + boxAreaFloor k - interArea b k : ℤ) : ℚ) :=
        Int.cast_lt.mpr hD
      push_cast at this
      linarith
    rw [div_lt_div_iff₀ (by norm_num) hDq]
    constructor
    · intro hq
      refine ⟨h, ?_⟩
      have : ((9 * (boxAreaFloor b + boxAreaFloor k - interArea b k) : ℤ) : ℚ) <
          ((20 * interArea b k : ℤ) : ℚ) := by
        push_cast
        linarith
      exact_mod_cast this
    · rintro ⟨-, hz⟩
      have : ((9 * (boxAreaFloor b + boxAreaFloor k - interArea b k) : ℤ) : ℚ) <
          ((20 * interArea b k : ℤ) : ℚ) := Int.cast_lt.mpr hz
      push_cast at this
      linarith

theorem decide_iou_gt (b k : Box) :
    decide ((9 : ℚ) / 20 < _iou b k) = overlapThresh b k := by
  unfold overlapThresh
  exact decide_eq_decide.mpr (iou_gt_iff b k)

theorem dedupGo_eq_int : ∀ (rest kept : List Box), dedupGo kept rest = dedupGoInt kept rest := by
  intro rest
  induction rest with
  | nil => intro kept; rfl
  | cons b rs ih =>
    intro kept
    rw [dedupGo, dedupGoInt]
    simp only [decide_iou_gt]
    split
    · exact ih kept
    · split
      · rfl
      · exact ih _

theorem keptBoxes_eval (w h : ℕ) (contours : List Rect) :
    keptBoxes w h contours = dedupGoInt [] (sortDesc (candidateBoxes w h contours)) :=
  dedupGo_eq_int _ _

theorem dedup_eval (bs : List Box) : dedup bs = dedupGoInt [] (sortDesc bs) :=
  dedupGo_eq_int _ _

theorem mem_insertDesc {b x : Box} {l : List Box} (h : x ∈ insertDesc b l) : x = b ∨ x ∈ l := by
  induction l with
  | nil =>
    rw [insertDesc] at h
    exact Or.inl (by simpa using h)
  | cons y ys ih =>
    rw [insertDesc] at h
    split at h
    · rcases List.mem_cons.mp h with h | h
      · exact Or.inl h
      · exact Or.inr h
    · rcases List.mem_cons.mp h with h | h
      · exact Or.inr (by simp [h])
      · rcases ih h with h | h
        · exact Or.inl h
        · exact Or.inr (List.mem_cons_of_mem _ h)

theorem insertDesc_perm (b : Box) (l : List Box) : (insertDesc b l).Perm (b :: l) := by
  induction l with
  | nil => rw [insertDesc]
  | cons y ys ih =>
    rw [insertDesc]
    split
    · exact List.Perm.refl _
    · exact List.Perm.trans (List.Perm.cons y ih) (List.Perm.swap b y ys)

theorem sortDesc_perm (l : List Box) : (sortDesc l).Perm l := by
  induction l with
  | nil => rw [sortDesc]
  | cons b rest ih =>
    rw [sortDesc]
    exact List.Perm.trans (insertDesc_perm b (sortDesc rest)) (List.Perm.cons b ih)

theorem mem_sortDesc {x : Box} {l : List Box} (h : x ∈ sortDesc l) : x ∈ l :=
  (sortDesc_perm l).mem_iff.mp h

theorem pairwise_insertDesc {b : Box} {l : List Box}
    (hl : List.Pairwise (fun a c => boxArea c ≤ boxArea a) l) :
    List.Pairwise (fun a c => boxArea c ≤ boxArea a) (insertDesc b l) := by
  induction l with
  | nil => simp [insertDesc]
  | cons y ys ih =>
    rw [insertDesc]
    rcases List.pairwise_cons.mp hl with ⟨hy, hys⟩
    split
    · next hle =>
      refine List.pairwise_cons.mpr ⟨?_, hl⟩
      intro z hz
      rcases List.mem_cons.mp hz with rfl | hz
      · exact hle
      · exact le_trans (hy z hz) hle
    · next hgt =>
      push_neg at hgt
      refine List.pairwise_cons.mpr ⟨?_, ih hys⟩
      intro z hz
      rcases mem_insertDesc hz with rfl | hz
      · exact hgt.le
      · exact hy z hz

theorem sortDesc_sorted (l : List Box) :
    List.Pairwise (fun a c => boxArea c ≤ boxArea a) (sortDesc l) := by
  induction l with
  | nil => simp [sortDesc]
  | cons b rest ih =>
    rw [sortDesc]
    exact pairwise_insertDesc ih

theorem filter_insertDesc (k : ℤ) (b : Box) (l : List Box) :
    (insertDesc b l).filter (fun x => decide (boxArea x = k)) =
      (if boxArea b = k then [b] else []) ++
        l.filter (fun x => decide (boxArea x = k)) := by
  induction l with
  | nil =>
    rw [insertDesc]
    by_cases hb : boxArea b = k <;> simp [List.filter_cons, hb]
  | cons y ys ih =>
    rw [insertDesc]
    split
    · next hle =>
      by_cases hb : boxArea b = k <;> by_cases hy : boxArea y = k <;>
        simp [List.filter_cons, hb, hy]
    · next hgt =>
      push_neg at hgt
      by_cases hb : boxArea b = k
      · by_cases hy : boxArea y = k
        · exact absurd (hy.trans hb.symm).le (not_le.mpr hgt)
        · simp [List.filter_cons, hy, ih, hb]
      · by_cases hy : boxArea y = k <;> simp [List.filter_cons, hy, ih, hb]

theorem filter_sortDesc (k : ℤ) (l : List Box) :
    (sortDesc l).filter (fun x => decide (boxArea x = k)) =
      l.filter (fun x => decide (boxArea x = k)) := by
  induction l with
  | nil => rw [sortDesc]
  | cons b rest ih =>
    rw [sortDesc, filter_insertDesc, ih]
    by_cases hb : boxArea b = k <;> simp [List.filter_cons, hb]

theorem dedupGo_subset {x : Box} :
    ∀ (rest kept : List Box), x ∈ dedupGo kept rest → x ∈ kept ∨ x ∈ rest := by
  intro rest
  induction rest with
  | nil =>
    intro kept h
    rw [dedupGo] at h
    exact Or.inl h
  | cons b rs ih =>
    intro kept h
    rw [dedupGo] at h
    split at h
    · rcases ih kept h with h | h
      · exact Or.inl h
      · exact Or.inr (List.mem_cons_of_mem _ h)
    · split at h
      · rcases List.mem_append.mp h with h | h
        · exact Or.inl h
        · simp only [List.mem_singleton] at h
          exact Or.inr (h ▸ List.mem_cons_self _ _)
      · rcases ih _ h with h | h
        · rcases List.mem_append.mp h with h | h
          · exact Or.inl h
          · simp only [List.mem_singleton] at h
            exact Or.inr (h ▸ List.mem_cons_self _ _)
        · exact Or.inr (List.mem_cons_of_mem _ h)

theorem mem_dedup {x : Box} {bs : List Box} (h : x ∈ dedup bs) : x ∈ bs := by
  rcases dedupGo_subset _ _ h with h | h
  · simp at h
  · exact mem_sortDesc h

theorem dedupGo_length :
    ∀ (rest kept : List Box), kept.length < 6 → (dedupGo kept rest).length ≤ 6 := by
  intro rest
  induction rest with
  | nil =>
    intro kept h
    rw [dedupGo]
    exact h.le
  | cons b rs ih =>
    intro kept h
    rw [dedupGo]
    split
    · exact ih kept h
    · split
      · next h6 =>
        rw [List.length_append, List.length_singleton]
        omega
      · next h6 =>
        refine ih _ ?_
        rw [List.length_append, List.length_singleton]
        omega

theorem dedup_length (bs : List Box) : (dedup bs).length ≤ 6 :=
  dedupGo_length _ _ (by simp)

theorem dedupGo_pairwise_iou :
    ∀ (rest kept : List Box),
      List.Pairwise (fun a c => _iou a c ≤ 9 / 20 ∧ _iou c a ≤ 9 / 20) kept →
      List.Pairwise (fun a c => _iou a c ≤ 9 / 20 ∧ _iou c a ≤ 9 / 20) (dedupGo kept rest) := by
  intro rest
  induction rest with
  | nil =>
    intro kept h
    rw [dedupGo]
    exact h
  | cons b rs ih =>
    intro kept h
    rw [dedupGo]
    split
    · exact ih kept h
    · next hany =>
      have hall : ∀ k ∈ kept, _iou b k ≤ 9 / 20 := by
        intro k hk
        by_contra hgt
        exact hany (List.any_eq_true.mpr ⟨k, hk, decide_eq_true (not_le.mp hgt)⟩)
      have happ : List.Pairwise (fun a c => _iou a c ≤ 9 / 20 ∧ _iou c a ≤ 9 / 20) (kept ++ [b]) := by
        rw [List.pairwise_append]
        refine ⟨h, List.pairwise_singleton _ _, ?_⟩
        intro a ha c hc
        rw [List.mem_singleton] at hc
        subst hc
        exact ⟨by rw [_iou_comm]; exact hall a ha, hall a ha⟩
      split
      · exact happ
      · exact ih _ happ

theorem dedup_pairwise_iou (bs : List Box) :
    List.Pairwise (fun a c => _iou a c ≤ 9 / 20 ∧ _iou c a ≤ 9 / 20) (dedup bs) :=
  dedupGo_pairwise_iou _ _ (List.Pairwise.nil)

theorem dedupGo_sorted :
    ∀ (rest kept : List Box),
      List.Pairwise (fun a c => boxArea c ≤ boxArea a) kept →
      List.Pairwise (fun a c => boxArea c ≤ boxArea a) rest →
      (∀ a ∈ kept, ∀ c ∈ rest, boxArea c ≤ boxArea a) →
      List.Pairwise (fun a c => boxArea c ≤ boxArea a) (dedupGo kept rest) := by
  intro rest
  induction rest with
  | nil =>
    intro kept hk _ _
    rw [dedupGo]
    exact hk
  | cons b rs ih =>
    intro kept hk hr hcross
    rcases List.pairwise_cons.mp hr with ⟨hb, hrs⟩
    have happ : List.Pairwise (fun a c => boxArea c ≤ boxArea a) (kept ++ [b]) := by
      rw [List.pairwise_append]
      refine ⟨hk, List.pairwise_singleton _ _, ?_⟩
      intro a ha c hc
      rw [List.mem_singleton] at hc
      rw [hc]
      exact hcross a ha b (List.mem_cons_self _ _)
    rw [dedupGo]
    split
    · exact ih kept hk hrs fun a ha c hc => hcross a ha c (List.mem_cons_of_mem _ hc)
    · split
      · exact happ
      · refine ih _ happ hrs ?_
        intro a ha c hc
        rcases List.mem_append.mp ha with ha | ha
        · exact hcross a ha c (List.mem_cons_of_mem _ hc)
        · rw [List.mem_singleton] at ha
          subst ha
          exact hb c hc

theorem dedup_sorted (bs : List Box) :
    List.Pairwise (fun a c => boxArea c ≤ boxArea a) (dedup bs) :=
  dedupGo_sorted _ _ List.Pairwise.nil (sortDesc_sorted bs) (by simp)

theorem mem_candidateBoxes {w h : ℕ} {contours : List Rect} {b : Box}
    (hb : b ∈ candidateBoxes w h contours) :
    ∃ r ∈ contours, keepsRect w h r ∧ padBox w h r = b := by
  unfold candidateBoxes at hb
  rcases List.mem_map.mp hb with ⟨r, hr, heq⟩
  rcases List.mem_filter.mp hr with ⟨hrm, hrk⟩
  exact ⟨r, hrm, of_decide_eq_true hrk, heq⟩

theorem mem_keptBoxes {w h : ℕ} {contours : List Rect} {b : Box}
    (hb : b ∈ keptBoxes w h contours) :
    ∃ r ∈ contours, keepsRect w h r ∧ padBox w h r = b := by
  unfold keptBoxes at hb
  exact mem_candidateBoxes (mem_dedup hb)

theorem padBox_facts {w h : ℕ} {r : Rect}
    (hxw : r.x + r.bw ≤ w) (hyh : r.y + r.bh ≤ h) :
    0 ≤ (padBox w h r).x0 ∧ (padBox w h r).x0 ≤ (r.x : ℤ) ∧
    ((r.x : ℤ) + (r.bw : ℤ)) ≤ (padBox w h r).x1 ∧ (padBox w h r).x1 ≤ (w : ℤ) ∧
    0 ≤ (padBox w h r).y0 ∧ (padBox w h r).y0 ≤ (r.y : ℤ) ∧
    ((r.y : ℤ) + (r.bh : ℤ)) ≤ (padBox w h r).y1 ∧ (padBox w h r).y1 ≤ (h : ℤ) ∧
    ((r.y : ℤ) - padAmt h) ≤ (padBox w h r).y0 ∧
    (padBox w h r).y1 ≤ ((r.y : ℤ) + (r.bh : ℤ) + padAmt h) := by
  unfold padBox _clamp padAmt
  simp only
  omega

theorem emitCrops_mem {base : String} {p : ℕ} {e : NamedImage} :
    ∀ {l : List Box} {i : ℕ}, e ∈ emitCrops base p i l →
      ∃ j b, l[j]? = some b ∧ cropSize b ≠ 0 ∧
        e = ⟨ImageContent.crop p b, diagName base (p + 1) (i + j + 1), "image/png"⟩ := by
  intro l
  induction l with
  | nil =>
    intro i h
    rw [emitCrops] at h
    simp at h
  | cons b rest ih =>
    intro i h
    rw [emitCrops] at h
    split at h
    · obtain ⟨j, c, hj, hc, he⟩ := ih h
      refine ⟨j + 1, c, by simpa using hj, hc, ?_⟩
      have hidx : i + 1 + j + 1 = i + (j + 1) + 1 := by omega
      rw [← hidx]
      exact he
    · next hb =>
      rcases List.mem_cons.mp h with h | h
      · exact ⟨0, b, by simp, hb, by simpa using h⟩
      · obtain ⟨j, c, hj, hc, he⟩ := ih h
        refine ⟨j + 1, c, by simpa using hj, hc, ?_⟩
        have hidx : i + 1 + j + 1 = i + (j + 1) + 1 := by omega
        rw [← hidx]
        exact he

theorem emitCrops_complete {base : String} {p : ℕ} :
    ∀ {l : List Box} {i : ℕ} {j : ℕ} {b : Box},
      l[j]? = some b → cropSize b ≠ 0 →
      (⟨ImageContent.crop p b, diagName base (p + 1) (i + j + 1), "image/png"⟩ : NamedImage) ∈
        emitCrops base p i l := by
  intro l
  induction l with
  | nil =>
    intro i j b hj _
    simp at hj
  | cons c rest ih =>
    intro i j b hj hb
    rw [emitCrops]
    split
    · next hc =>
      cases j with
      | zero =>
        rw [List.getElem?_cons_zero] at hj
        injection hj with hj
        rw [hj] at hc
        exact absurd hc hb
      | succ j =>
        rw [List.getElem?_cons_succ] at hj
        have := ih (i := i + 1) hj hb
        simpa [Nat.add_assoc, Nat.add_comm 1 j] using this
    · next hc =>
      cases j with
      | zero =>
        rw [List.getElem?_cons_zero] at hj
        injection hj with hj
        rw [hj]
        exact List.mem_cons_self _ _
      | succ j =>
        rw [List.getElem?_cons_succ] at hj
        have := ih (i := i + 1) hj hb
        refine List.mem_cons_of_mem _ ?_
        simpa [Nat.add_assoc, Nat.add_comm 1 j] using this

theorem emitCrops_pairwise {base : String} {p : ℕ} :
    ∀ {l : List Box} {i : ℕ},
      List.Pairwise (fun a c => boxArea c ≤ boxArea a) l →
      List.Pairwise (fun e1 e2 => contentArea e2.content ≤ contentArea e1.content)
        (emitCrops base p i l) := by
  intro l
  induction l with
  | nil =>
    intro i _
    rw [emitCrops]
    exact List.Pairwise.nil
  | cons b rest ih =>
    intro i hp
    rcases List.pairwise_cons.mp hp with ⟨hb, hrest⟩
    rw [emitCrops]
    split
    · exact ih hrest
    · refine List.pairwise_cons.mpr ⟨?_, ih hrest⟩
      intro e he
      obtain ⟨j, c, hj, -, he⟩ := emitCrops_mem he
      rw [he]
      have hc : c ∈ rest := by
        rcases List.getElem?_eq_some_iff.mp hj with ⟨hlt, hg⟩
        rw [← hg]
        exact List.getElem_mem hlt
      simpa [contentArea] using hb c hc

theorem eraseBlock_apply (w h : ℕ) (sx sy : ℚ) (m : Mask) (b : TextBlock) (r c : ℕ) :
    eraseBlock w h sx sy m b r c =
      if b.type = 0 then (if inBlockRect w h sx sy b r c then 0 else m r c) else m r c := by
  unfold eraseBlock
  rw [apply_ite (fun g : Mask => g r c)]

theorem eraseBlocks_zero (w h : ℕ) (sx sy : ℚ) :
    ∀ (blocks : List TextBlock) (m : Mask) (r c : ℕ),
      m r c = 0 → eraseBlocks w h sx sy blocks m r c = 0 := by
  intro blocks
  induction blocks with
  | nil => intro m r c hm; exact hm
  | cons b bs ih =>
    intro m r c hm
    unfold eraseBlocks
    rw [List.foldl_cons]
    refine ih _ _ _ ?_
    rw [eraseBlock_apply]
    split
    · split
      · rfl
      · exact hm
    · exact hm

theorem eraseBlocks_frame (w h : ℕ) (sx sy : ℚ) :
    ∀ (blocks : List TextBlock) (m : Mask) (r c : ℕ),
      (∀ b ∈ blocks, b.type = 0 → ¬ inBlockRect w h sx sy b r c) →
      eraseBlocks w h sx sy blocks m r c = m r c := by
  intro blocks
  induction blocks with
  | nil => intro m r c _; rfl
  | cons b bs ih =>
    intro m r c hout
    unfold eraseBlocks
    rw [List.foldl_cons]
    have htail :
        eraseBlocks w h sx sy bs (eraseBlock w h sx sy m b) r c =
          eraseBlock w h sx sy m b r c :=
      ih _ _ _ fun b' hb' => hout b' (List.mem_cons_of_mem _ hb')
    rw [show List.foldl (eraseBlock w h sx sy) (eraseBlock w h sx sy m b) bs =
          eraseBlocks w h sx sy bs (eraseBlock w h sx sy m b) from rfl, htail,
      eraseBlock_apply]
    split
    · next ht => rw [if_neg (hout b (List.mem_cons_self _ _) ht)]
    · rfl

theorem eraseBlocks_hit (w h : ℕ) (sx sy : ℚ) :
    ∀ (blocks : List TextBlock) (m : Mask) (r c : ℕ),
      (∃ b ∈ blocks, b.type = 0 ∧ inBlockRect w h sx sy b r c) →
      eraseBlocks w h sx sy blocks m r c = 0 := by
  intro blocks
  induction blocks with
  | nil =>
    intro m r c hex
    simp at hex
  | cons b bs ih =>
    intro m r c hex
    unfold eraseBlocks
    rw [List.foldl_cons]
    rcases hex with ⟨b', hb', ht', hin'⟩
    rcases List.mem_cons.mp hb' with rfl | hb'
    · refine eraseBlocks_zero w h sx sy bs _ r c ?_
      rw [eraseBlock_apply, if_pos ht', if_pos hin']
    · exact ih _ _ _ ⟨b', hb', ht', hin'⟩

theorem renderDoc_get (base : String) (pages : List Page) (i : ℕ) (hi : i < pages.length) :
    (renderDoc base pages)[i]? =
      some ⟨ImageContent.fullPage i, slideName base (i + 1), "image/png"⟩ := by
  unfold renderDoc
  rw [List.getElem?_map, List.getElem?_range hi]
  rfl

theorem renderDoc_length (base : String) (pages : List Page) :
    (renderDoc base pages).length = pages.length := by
  unfold renderDoc
  rw [List.length_map, List.length_range]

theorem extractDoc_empty {base : String} {pages : List Page}
    (hempty : ∀ p ∈ pages, ∀ i, extractPage p.w p.h p.contours base i = []) :
    extractDoc base pages = [] := by
  unfold extractDoc
  rw [List.flatten_eq_nil_iff]
  intro l hl
  rcases List.mem_map.mp hl with ⟨ip, hip, heq⟩
  have hp : ip.2 ∈ pages := by
    have h2 : ip.2 ∈ List.map Prod.snd pages.enum := List.mem_map_of_mem _ hip
    rwa [List.enum_map_snd] at h2
  rw [← heq]
  exact hempty ip.2 hp ip.1

theorem pairwise_desc_head {l : List Box}
    (hp : List.Pairwise (fun a c => boxArea c ≤ boxArea a) l)
    {j : ℕ} {b b0 : Box} (hj : l[j]? = some b) (h0 : l[0]? = some b0) :
    boxArea b ≤ boxArea b0 := by
  rcases List.getElem?_eq_some_iff.mp hj with ⟨hjl, hbj⟩
  rcases List.getElem?_eq_some_iff.mp h0 with ⟨h0l, hb0⟩
  rcases Nat.eq_zero_or_pos j with hz | hz
  · subst hz
    rw [← hbj, ← hb0]
  · have := (List.pairwise_iff_getElem.mp hp) 0 j h0l hjl hz
    rw [← hbj, ← hb0]
    exact this

/-- C1: in diagram mode, when diagram extraction yields zero boxes (so for
every page, hence for any given page), the page-render fallback is invoked:
the output is exactly the full-document render, which contains one full-page
image per page, so every page contributes at least one output artifact. -/
theorem C1_page_render_fallback (mode sourceName : String) (pages : List Page)
    (hmode : mode ≠ "page") (hne : pages ≠ [])
    (hmax : pages.length ≤ MAX_SLIDE_PAGES)
    (hempty : ∀ p ∈ pages, ∀ i, extractPage p.w p.h p.contours (baseOf sourceName) i = []) :
    expandPdf mode sourceName pages = Except.ok (renderDoc (baseOf sourceName) pages) ∧
    (renderDoc (baseOf sourceName) pages).length = pages.length ∧
    ∀ i, i < pages.length →
      (renderDoc (baseOf sourceName) pages)[i]? =
        some ⟨ImageContent.fullPage i, slideName (baseOf sourceName) (i + 1), "image/png"⟩ := by
  have hlen0 : ¬ pages.length = 0 := fun hh => hne (List.length_eq_zero.mp hh)
  have hex : extractDoc (baseOf sourceName) pages = [] := extractDoc_empty hempty
  refine ⟨?_, renderDoc_length _ _, fun i hi => renderDoc_get _ _ i hi⟩
  unfold expandPdf
  rw [if_neg hmode]
  unfold extractDocChecked
  rw [if_neg hlen0, if_neg (not_lt.mpr hmax)]
  simp only [hex, List.isEmpty_nil, if_pos]
  unfold renderDocChecked
  rw [if_neg hlen0, if_neg (not_lt.mpr hmax)]

/-- Witness for C1 at a concrete one-page document with no contours. -/
theorem C1_page_render_fallback_witness :
    ("diagram" : String) ≠ "page" ∧
    ([(⟨0, 0, []⟩ : Page)] : List Page) ≠ [] ∧
    ([(⟨0, 0, []⟩ : Page)] : List Page).length ≤ MAX_SLIDE_PAGES ∧
    expandPdf "diagram" "deck.pdf" [⟨0, 0, []⟩] =
      Except.ok (renderDoc (baseOf "deck.pdf") [⟨0, 0, []⟩]) :=
  ⟨by decide, by decide, by decide,
    (C1_page_render_fallback "diagram" "deck.pdf" [⟨0, 0, []⟩]
      (by decide) (by decide) (by decide)
      (fun p hp i => by rcases List.mem_singleton.mp hp with rfl; rfl)).1⟩

/-- C2 counterexample: on a 1000 x 1000 page, the in-bounds contour rectangle
(x, y, bw, bh) = (0, 40, 1000, 900) passes every filter (raw area ratio is
exactly 0.90), but the returned padded box (0, 30, 1000, 950) has area ratio
0.92 > 0.90, refuting the claim that the returned (padded, clamped) box
satisfies area/page_area ≤ 0.90. -/
theorem C2_counterexample :
    (0 : ℕ) + 1000 ≤ 1000 ∧ (40 : ℕ) + 900 ≤ 1000 ∧
    keptBoxes 1000 1000 [⟨0, 40, 1000, 900⟩] = [⟨0, 30, 1000, 950⟩] ∧
    9 * ((1000 : ℤ) * 1000) < 10 * boxArea ⟨0, 30, 1000, 950⟩ :=
  ⟨by decide, by decide, by rw [keptBoxes_eval]; decide, by decide⟩

/-- C2 amended: for in-bounds contour rectangles the extractor returns at
most 6 boxes; each returned padded box has width ≥ 140, height ≥ 100 and
area/page_area ≥ 0.02, and it is the padding of a surviving contour
rectangle whose pre-padding area satisfies area/page_area ≤ 0.90 (the 0.90
upper bound holds before padding, not after, as the counterexample shows). -/
theorem C2_box_bounds (w h : ℕ) (contours : List Rect)
    (hb : ∀ r ∈ contours, r.x + r.bw ≤ w ∧ r.y + r.bh ≤ h) :
    (keptBoxes w h contours).length ≤ 6 ∧
    ∀ b ∈ keptBoxes w h contours,
      140 ≤ b.x1 - b.x0 ∧ 100 ≤ b.y1 - b.y0 ∧
      ((w : ℤ) * (h : ℤ)) ≤ 50 * boxArea b ∧
      ∃ r ∈ contours, padBox w h r = b ∧
        10 * ((r.bw : ℤ) * (r.bh : ℤ)) ≤ 9 * ((w : ℤ) * (h : ℤ)) := by
  constructor
  · unfold keptBoxes
    exact dedup_length _
  · intro b hbk
    obtain ⟨r, hrm, hrk, hpad⟩ := mem_keptBoxes hbk
    obtain ⟨hxw, hyh⟩ := hb r hrm
    obtain ⟨k1, k2, k3, k4, k5, k6⟩ := hrk
    obtain ⟨p1, p2, p3, p4, p5, p6, p7, p8, p9, p10⟩ := padBox_facts hxw hyh
    rw [← hpad] at *
    have hwide : (r.bw : ℤ) ≤ (padBox w h r).x1 - (padBox w h r).x0 := by omega
    have htall : (r.bh : ℤ) ≤ (padBox w h r).y1 - (padBox w h r).y0 := by omega
    have harea : (r.bw : ℤ) * (r.bh : ℤ) ≤ boxArea (padBox w h r) := by
      unfold boxArea
      exact mul_le_mul hwide htall (by positivity) (by omega)
    refine ⟨by omega, by omega, ?_, r, hrm, rfl, ?_⟩
    · have hk1 : ((w : ℤ) * (h : ℤ)) ≤ 50 * ((r.bw : ℤ) * (r.bh : ℤ)) := by
        exact_mod_cast k1
      linarith
    · exact_mod_cast k2

/-- Witness for C2 at a concrete in-bounds contour list. -/
theorem C2_box_bounds_witness :
    (∀ r ∈ [(⟨0, 50, 600, 400⟩ : Rect)], r.x + r.bw ≤ 1000 ∧ r.y + r.bh ≤ 1000) ∧
    (keptBoxes 1000 1000 [⟨0, 50, 600, 400⟩]).length ≤ 6 :=
  ⟨by decide, (C2_box_bounds 1000 1000 [⟨0, 50, 600, 400⟩] (by decide)).1⟩

/-- C3 counterexample: on a 1000 x 1000 page the contour rectangle
(0, 40, 500, 500) has its top edge exactly at the header cut 0.04h = 40, so
it survives the band filter, but after padding the returned box is
(0, 30, 510, 550), whose top edge 30 lies strictly inside the header band
[0, 0.04h), refuting the claim that the post-padding-and-clamp vertical span
avoids the band. -/
theorem C3_counterexample :
    (0 : ℕ) + 500 ≤ 1000 ∧ (40 : ℕ) + 500 ≤ 1000 ∧
    keptBoxes 1000 1000 [⟨0, 40, 500, 500⟩] = [⟨0, 30, 510, 550⟩] ∧
    (⟨0, 30, 510, 550⟩ : Box).y0 < ((headerCut 1000 : ℕ) : ℤ) :=
  ⟨by decide, by decide, by rw [keptBoxes_eval]; decide, by decide⟩

/-- C3 amended: the header/footer exclusion applies to the pre-padding
contour rectangle: every returned box is the padding of a rectangle with
int(0.04h) ≤ y and y + bh ≤ int(0.98h), and the returned box itself only
satisfies the band bounds relaxed by the padding amount (and the clamp
bounds 0 ≤ y0, y1 ≤ h). -/
theorem C3_band_bounds (w h : ℕ) (contours : List Rect)
    (hb : ∀ r ∈ contours, r.x + r.bw ≤ w ∧ r.y + r.bh ≤ h) :
    ∀ b ∈ keptBoxes w h contours,
      ∃ r ∈ contours, padBox w h r = b ∧
        headerCut h ≤ r.y ∧ r.y + r.bh ≤ footerCut h ∧
        ((headerCut h : ℤ) - padAmt h) ≤ b.y0 ∧
        b.y1 ≤ ((footerCut h : ℤ) + padAmt h) ∧
        0 ≤ b.y0 ∧ b.y1 ≤ (h : ℤ) := by
  intro b hbk
  obtain ⟨r, hrm, hrk, hpad⟩ := mem_keptBoxes hbk
  obtain ⟨hxw, hyh⟩ := hb r hrm
  obtain ⟨k1, k2, k3, k4, k5, k6⟩ := hrk
  obtain ⟨p1, p2, p3, p4, p5, p6, p7, p8, p9, p10⟩ := padBox_facts hxw hyh
  rw [← hpad] at *
  exact ⟨r, hrm, rfl, k5, k6, by omega, by omega, by omega, by omega⟩

/-- Witness for C3 at a concrete in-bounds contour list. -/
theorem C3_band_bounds_witness :
    (∀ r ∈ [(⟨100, 100, 300, 200⟩ : Rect)], r.x + r.bw ≤ 1000 ∧ r.y + r.bh ≤ 1000) ∧
    ∀ b ∈ keptBoxes 1000 1000 [⟨100, 100, 300, 200⟩],
      ∃ r ∈ [(⟨100, 100, 300, 200⟩ : Rect)], padBox 1000 1000 r = b ∧
        headerCut 1000 ≤ r.y ∧ r.y + r.bh ≤ footerCut 1000 ∧
        ((headerCut 1000 : ℤ) - padAmt 1000) ≤ b.y0 ∧
        b.y1 ≤ ((footerCut 1000 : ℤ) + padAmt 1000) ∧
        0 ≤ b.y0 ∧ b.y1 ≤ (1000 : ℤ) :=
  ⟨by decide, C3_band_bounds 1000 1000 [⟨100, 100, 300, 200⟩] (by decide)⟩

/-- C4: deduplication sorts by area descending with a stable sort (it is a
permutation, it is sorted by area descending, and filtering any fixed area
preserves the original order, i.e. ties keep contour discovery order), the
greedy pass keeps a box only when its IoU with every kept box is ≤ 0.45 and
stops at 6 (so the result has length ≤ 6 and no two kept boxes have IoU
above 0.45 in either order), and on the fixture of 10 mutually-overlapping
boxes of strictly decreasing size exactly the largest one is kept. -/
theorem C4_dedup_spec (bs : List Box) :
    (dedup bs).length ≤ 6 ∧
    List.Pairwise (fun a c => _iou a c ≤ 9 / 20 ∧ _iou c a ≤ 9 / 20) (dedup bs) ∧
    List.Pairwise (fun a c => boxArea c ≤ boxArea a) (sortDesc bs) ∧
    (sortDesc bs).Perm bs ∧
    (∀ k : ℤ, (sortDesc bs).filter (fun x => decide (boxArea x = k)) =
        bs.filter (fun x => decide (boxArea x = k))) ∧
    (∀ a ∈ tenBoxes, ∀ b ∈ tenBoxes, (9 : ℚ) / 20 < _iou a b) ∧
    List.Pairwise (fun a c => boxArea c < boxArea a) tenBoxes ∧
    dedup tenBoxes = [⟨0, 0, 1000, 100⟩] := by
  refine ⟨dedup_length bs, dedup_pairwise_iou bs, sortDesc_sorted bs, sortDesc_perm bs,
    fun k => filter_sortDesc k bs, ?_, by decide, by rw [dedup_eval]; decide⟩
  simp only [iou_gt_iff]
  decide

/-- Witness for C4: the cap at a concrete input and the fixture result. -/
theorem C4_dedup_spec_witness :
    (dedup ([] : List Box)).length ≤ 6 ∧ dedup tenBoxes = [⟨0, 0, 1000, 100⟩] :=
  ⟨(C4_dedup_spec []).1, (C4_dedup_spec []).2.2.2.2.2.2.2⟩

/-- C5: for all integer boxes, `_iou` lies in [0, 1]; a non-positive
intersection yields exactly 0; and with a positive intersection the
denominator `a_area + b_area - inter` (own areas floored at 1) is strictly
positive — the division-by-zero branch is unreachable — and the result is
exactly `inter / (a_area + b_area - inter)`. -/
theorem C5_iou_spec (a b : Box) :
    0 ≤ _iou a b ∧ _iou a b ≤ 1 ∧
    (interArea a b ≤ 0 → _iou a b = 0) ∧
    (0 < interArea a b →
      0 < boxAreaFloor a + boxAreaFloor b - interArea a b ∧
      _iou a b = (interArea a b : ℚ) /
        ((boxAreaFloor a : ℚ) + (boxAreaFloor b : ℚ) - (interArea a b : ℚ))) := by
  refine ⟨_iou_nonneg a b, _iou_le_one a b, ?_, ?_⟩
  · intro h
    unfold _iou
    rw [if_pos h]
  · intro h
    have hB := interArea_le_right a b
    have hD : 0 < boxAreaFloor a + boxAreaFloor b - interArea a b := by
      have := boxAreaFloor_pos a
      omega
    refine ⟨hD, ?_⟩
    unfold _iou
    rw [if_neg (not_le.mpr h)]

/-- Witness for C5 at two concrete overlapping boxes. -/
theorem C5_iou_spec_witness :
    0 < interArea ⟨0, 0, 10, 10⟩ ⟨5, 0, 15, 10⟩ ∧
    0 < boxAreaFloor (⟨0, 0, 10, 10⟩ : Box) + boxAreaFloor ⟨5, 0, 15, 10⟩ -
        interArea ⟨0, 0, 10, 10⟩ ⟨5, 0, 15, 10⟩ ∧
    _iou ⟨0, 0, 10, 10⟩ ⟨5, 0, 15, 10⟩ =
      (interArea ⟨0, 0, 10, 10⟩ ⟨5, 0, 15, 10⟩ : ℚ) /
        ((boxAreaFloor (⟨0, 0, 10, 10⟩ : Box) : ℚ) + (boxAreaFloor (⟨5, 0, 15, 10⟩ : Box) : ℚ) -
          (interArea ⟨0, 0, 10, 10⟩ ⟨5, 0, 15, 10⟩ : ℚ)) :=
  ⟨by decide, ((C5_iou_spec ⟨0, 0, 10, 10⟩ ⟨5, 0, 15, 10⟩).2.2.2 (by decide)).1,
    ((C5_iou_spec ⟨0, 0, 10, 10⟩ ⟨5, 0, 15, 10⟩).2.2.2 (by decide)).2⟩

/-- C6: the thresholded mask is 255 exactly where grayscale < 245 and 0
elsewhere; the text-erase step zeroes exactly the pixels covered by the
pixel rectangle of some type-0 block (page box scaled by sx/sy, expanded by
the 8-pixel margin, clamped to the image), and every pixel outside the union
of those rectangles keeps its previous mask value unchanged — in particular
the thresholded value when the input is the thresholded mask. -/
theorem C6_text_erase (w h : ℕ) (sx sy : ℚ) (blocks : List TextBlock)
    (gray : ℕ → ℕ → ℕ) (m : Mask) (r c : ℕ) :
    (threshMask gray r c = if gray r c < 245 then 255 else 0) ∧
    ((∀ b ∈ blocks, b.type = 0 → ¬ inBlockRect w h sx sy b r c) →
      eraseBlocks w h sx sy blocks m r c = m r c) ∧
    ((∀ b ∈ blocks, b.type = 0 → ¬ inBlockRect w h sx sy b r c) →
      eraseBlocks w h sx sy blocks (threshMask gray) r c =
        if gray r c < 245 then 255 else 0) ∧
    ((∃ b ∈ blocks, b.type = 0 ∧ inBlockRect w h sx sy b r c) →
      eraseBlocks w h sx sy blocks m r c = 0) := by
  refine ⟨rfl, ?_, ?_, ?_⟩
  · intro hout
    exact eraseBlocks_frame w h sx sy blocks m r c hout
  · intro hout
    exact eraseBlocks_frame w h sx sy blocks (threshMask gray) r c hout
  · intro hex
    exact eraseBlocks_hit w h sx sy blocks m r c hex

/-- Witness for C6: a 10 x 10 page with unit scale factors and one type-0
block whose bbox degenerates to the origin; its expanded pixel rectangle is
[0, 8) x [0, 8), so pixel (5, 5) is erased to 0 while pixel (9, 9) keeps its
thresholded value. -/
theorem C6_text_erase_witness :
    (∃ b ∈ [(⟨0, 0, 0, 0, 0⟩ : TextBlock)], b.type = 0 ∧ inBlockRect 10 10 1 1 b 5 5) ∧
    eraseBlocks 10 10 1 1 [⟨0, 0, 0, 0, 0⟩] (threshMask fun _ _ => 0) 5 5 = 0 ∧
    (∀ b ∈ [(⟨0, 0, 0, 0, 0⟩ : TextBlock)], b.type = 0 → ¬ inBlockRect 10 10 1 1 b 9 9) ∧
    eraseBlocks 10 10 1 1 [⟨0, 0, 0, 0, 0⟩] (threshMask fun _ _ => 0) 9 9 = 255 := by
  have hpix : blockPix 10 10 1 1 ⟨0, 0, 0, 0, 0⟩ = ⟨0, 0, 8, 8⟩ := by
    unfold blockPix pytrunc _clamp
    norm_num
  have hin : inBlockRect 10 10 1 1 ⟨0, 0, 0, 0, 0⟩ 5 5 := by
    unfold inBlockRect
    rw [hpix]
    norm_num
  have hout : ∀ b ∈ [(⟨0, 0, 0, 0, 0⟩ : TextBlock)], b.type = 0 →
      ¬ inBlockRect 10 10 1 1 b 9 9 := by
    intro b hb _
    rw [List.mem_singleton] at hb
    subst hb
    unfold inBlockRect
    rw [hpix]
    norm_num
  have hex : ∃ b ∈ [(⟨0, 0, 0, 0, 0⟩ : TextBlock)], b.type = 0 ∧
      inBlockRect 10 10 1 1 b 5 5 := ⟨_, List.mem_singleton_self _, rfl, hin⟩
  refine ⟨hex, ?_, hout, ?_⟩
  · exact (C6_text_erase 10 10 1 1 [⟨0, 0, 0, 0, 0⟩] (fun _ _ => 0)
      (threshMask fun _ _ => 0) 5 5).2.2.2 hex
  · have h9 := (C6_text_erase 10 10 1 1 [⟨0, 0, 0, 0, 0⟩] (fun _ _ => 0)
      (threshMask fun _ _ => 0) 9 9).2.2.1 hout
    rw [h9]
    norm_num

/-- C7: with in-bounds contour rectangles, every emitted crop box satisfies
0 ≤ x0 < x1 ≤ w and 0 ≤ y0 < y1 ≤ h after clamping and has positive area and
positive crop pixel count; and unconditionally, a crop of zero pixels is
never emitted. -/
theorem C7_box_invariants (w h : ℕ) (contours : List Rect) (base : String) (pidx : ℕ)
    (hb : ∀ r ∈ contours, r.x + r.bw ≤ w ∧ r.y + r.bh ≤ h) :
    (∀ e ∈ extractPage w h contours base pidx,
      ∃ b, e.content = ImageContent.crop pidx b ∧
        0 ≤ b.x0 ∧ b.x0 < b.x1 ∧ b.x1 ≤ (w : ℤ) ∧
        0 ≤ b.y0 ∧ b.y0 < b.y1 ∧ b.y1 ≤ (h : ℤ) ∧
        0 < boxArea b ∧ 0 < cropSize b) ∧
    (∀ (w' h' : ℕ) (cs : List Rect) (base' : String) (p' : ℕ),
      ∀ e ∈ extractPage w' h' cs base' p',
        ∃ b, e.content = ImageContent.crop p' b ∧ cropSize b ≠ 0) := by
  constructor
  · intro e he
    obtain ⟨j, b, hj, hcz, heq⟩ := emitCrops_mem he
    have hbk : b ∈ keptBoxes w h contours := by
      rcases List.getElem?_eq_some_iff.mp hj with ⟨hlt, hg⟩
      rw [← hg]
      exact List.getElem_mem hlt
    obtain ⟨r, hrm, hrk, hpad⟩ := mem_keptBoxes hbk
    obtain ⟨hxw, hyh⟩ := hb r hrm
    obtain ⟨k1, k2, k3, k4, k5, k6⟩ := hrk
    obtain ⟨p1, p2, p3, p4, p5, p6, p7, p8, p9, p10⟩ := padBox_facts hxw hyh
    subst hpad
    have hx : (padBox w h r).x0 < (padBox w h r).x1 := by omega
    have hy : (padBox w h r).y0 < (padBox w h r).y1 := by omega
    refine ⟨padBox w h r, by rw [heq], p1, hx, p4, p5, hy, p8, ?_, ?_⟩
    · unfold boxArea
      exact mul_pos (by omega) (by omega)
    · unfold cropSize
      rw [max_eq_right (by omega : (0 : ℤ) ≤ (padBox w h r).y1 - (padBox w h r).y0),
        max_eq_right (by omega : (0 : ℤ) ≤ (padBox w h r).x1 - (padBox w h r).x0)]
      exact mul_pos (mul_pos (by omega) (by omega)) (by norm_num)
  · intro w' h' cs base' p' e he
    obtain ⟨j, b, hj, hcz, heq⟩ := emitCrops_mem he
    exact ⟨b, by rw [heq], hcz⟩

/-- Witness for C7 at a concrete in-bounds contour list. -/
theorem C7_box_invariants_witness :
    (∀ r ∈ [(⟨100, 100, 300, 200⟩ : Rect)], r.x + r.bw ≤ 1000 ∧ r.y + r.bh ≤ 1000) ∧
    ∀ e ∈ extractPage 1000 1000 [⟨100, 100, 300, 200⟩] "deck" 0,
      ∃ b, e.content = ImageContent.crop 0 b ∧
        0 ≤ b.x0 ∧ b.x0 < b.x1 ∧ b.x1 ≤ (1000 : ℤ) ∧
        0 ≤ b.y0 ∧ b.y0 < b.y1 ∧ b.y1 ≤ (1000 : ℤ) ∧
        0 < boxArea b ∧ 0 < cropSize b :=
  ⟨by decide,
    (C7_box_invariants 1000 1000 [⟨100, 100, 300, 200⟩] "deck" 0 (by decide)).1⟩

/-- C8: every emitted image has mime type image/png and carries the name
{base}_p{page:03d}_diagram_{idx:02d}.png where idx - 1 is its position in
the kept list (1-based, zero-padded); and on the concrete instance of the
claim, source name "deck.pdf", page 3, second kept diagram, the generated
name is deck_p003_diagram_02.png. -/
theorem C8_output_naming (w h : ℕ) (contours : List Rect) (base : String) (pidx : ℕ) :
    (∀ e ∈ extractPage w h contours base pidx,
      e.mime = "image/png" ∧
      ∃ j, j < (keptBoxes w h contours).length ∧
        e.name = diagName base (pidx + 1) (j + 1)) ∧
    baseOf "deck.pdf" = "deck" ∧
    diagName (baseOf "deck.pdf") 3 2 = "deck_p003_diagram_02.png" := by
  refine ⟨?_, by decide, by decide⟩
  intro e he
  obtain ⟨j, b, hj, hcz, heq⟩ := emitCrops_mem he
  rcases List.getElem?_eq_some_iff.mp hj with ⟨hlt, -⟩
  refine ⟨by rw [heq], j, hlt, ?_⟩
  rw [heq]
  simp

/-- Witness for C8: the concrete naming facts via the theorem. -/
theorem C8_output_naming_witness :
    baseOf "deck.pdf" = "deck" ∧
    diagName (baseOf "deck.pdf") 3 2 = "deck_p003_diagram_02.png" :=
  ⟨(C8_output_naming 0 0 [] "x" 0).2.1, (C8_output_naming 0 0 [] "x" 0).2.2⟩

/-- C9: the per-page extractor is a total function with no error outcome:
on a zero-size raster (whose contour rectangles are necessarily degenerate)
it returns the empty "no candidates" result rather than raising; an empty
text-block list makes the erase step the identity and the pipeline proceeds;
and the document-level page-count limit is enforced by the wrapper around
the per-page extractor: above MAX_SLIDE_PAGES it errors with 413 before any
page is processed, and otherwise the per-page extractor runs on every page. -/
theorem C9_error_handling :
    (∀ (w h : ℕ) (contours : List Rect) (base : String) (pidx : ℕ),
      (w = 0 ∨ h = 0) →
      (∀ r ∈ contours, r.x + r.bw ≤ w ∧ r.y + r.bh ≤ h) →
      extractPage w h contours base pidx = []) ∧
    (∀ (w h : ℕ) (sx sy : ℚ) (m : Mask), eraseBlocks w h sx sy [] m = m) ∧
    (∀ (base : String) (pages : List Page), MAX_SLIDE_PAGES < pages.length →
      extractDocChecked base pages = Except.error 413) ∧
    (∀ (base : String) (pages : List Page), pages ≠ [] → pages.length ≤ MAX_SLIDE_PAGES →
      extractDocChecked base pages = Except.ok (extractDoc base pages)) := by
  refine ⟨?_, fun w h sx sy m => rfl, ?_, ?_⟩
  · intro w h contours base pidx hwh hb
    have hfil : contours.filter (fun r => decide (keepsRect w h r)) = [] := by
      rw [List.filter_eq_nil_iff]
      intro r hr hk
      obtain ⟨-, -, k3, k4, -, -⟩ := of_decide_eq_true hk
      obtain ⟨h1, h2⟩ := hb r hr
      rcases hwh with rfl | rfl <;> omega
    have hcand : candidateBoxes w h contours = [] := by
      unfold candidateBoxes
      rw [hfil]
      rfl
    unfold extractPage keptBoxes dedup
    rw [hcand]
    rfl
  · intro base pages hgt
    unfold extractDocChecked
    rw [if_neg (by omega : ¬ pages.length = 0), if_pos hgt]
  · intro base pages hne hle
    unfold extractDocChecked
    rw [if_neg (fun hh => hne (List.length_eq_zero.mp hh)), if_neg (not_lt.mpr hle)]

/-- Witness for C9: a degenerate raster with a degenerate contour yields no
candidates, and an 81-page document is rejected with 413 by the wrapper. -/
theorem C9_error_handling_witness :
    ((0 : ℕ) = 0 ∨ (0 : ℕ) = 0) ∧
    (∀ r ∈ [(⟨0, 0, 0, 0⟩ : Rect)], r.x + r.bw ≤ 0 ∧ r.y + r.bh ≤ 0) ∧
    extractPage 0 0 [⟨0, 0, 0, 0⟩] "doc" 0 = [] ∧
    MAX_SLIDE_PAGES < (List.replicate 81 (⟨0, 0, []⟩ : Page)).length ∧
    extractDocChecked "doc" (List.replicate 81 ⟨0, 0, []⟩) = Except.error 413 :=
  ⟨Or.inl rfl, by decide,
    C9_error_handling.1 0 0 [⟨0, 0, 0, 0⟩] "doc" 0 (Or.inl rfl) (by decide),
    by decide,
    C9_error_handling.2.2.1 "doc" (List.replicate 81 ⟨0, 0, []⟩) (by decide)⟩

/-- C10: the emitted crops of a page appear in non-increasing area order
(the kept list itself is sorted by area descending), and each emitted entry
is named with the 1-based position of its box in the kept list, whose first
element has maximal area among the kept boxes — so diagram_01, when emitted,
is always the largest kept region. -/
theorem C10_size_order (w h : ℕ) (contours : List Rect) (base : String) (pidx : ℕ) :
    List.Pairwise (fun e1 e2 => contentArea e2.content ≤ contentArea e1.content)
      (extractPage w h contours base pidx) ∧
    List.Pairwise (fun a c => boxArea c ≤ boxArea a) (keptBoxes w h contours) ∧
    ∀ e ∈ extractPage w h contours base pidx,
      ∃ j b, (keptBoxes w h contours)[j]? = some b ∧
        e.name = diagName base (pidx + 1) (j + 1) ∧
        e.content = ImageContent.crop pidx b ∧
        ∀ b0, (keptBoxes w h contours)[0]? = some b0 → boxArea b ≤ boxArea b0 := by
  have hsorted : List.Pairwise (fun a c => boxArea c ≤ boxArea a) (keptBoxes w h contours) := by
    unfold keptBoxes
    exact dedup_sorted _
  refine ⟨emitCrops_pairwise hsorted, hsorted, ?_⟩
  intro e he
  obtain ⟨j, b, hj, hcz, heq⟩ := emitCrops_mem he
  refine ⟨j, b, hj, ?_, by rw [heq], ?_⟩
  · rw [heq]
    simp
  · intro b0 h0
    exact pairwise_desc_head hsorted hj h0

/-- Witness for C10: the sortedness facts at a concrete page. -/
theorem C10_size_order_witness :
    List.Pairwise (fun e1 e2 => contentArea e2.content ≤ contentArea e1.content)
      (extractPage 1000 1000 [⟨100, 100, 300, 200⟩] "deck" 0) ∧
    List.Pairwise (fun a c => boxArea c ≤ boxArea a)
      (keptBoxes 1000 1000 [⟨100, 100, 300, 200⟩]) :=
  ⟨(C10_size_order 1000 1000 [⟨100, 100, 300, 200⟩] "deck" 0).1,
    (C10_size_order 1000 1000 [⟨100, 100, 300, 200⟩] "deck" 0).2.1⟩

end MediaBridge

